import Mathlib

/-!
Verification of the list-reconciliation engine of
`enwiki/massmessage_list_updater.py` (user-groups MassMessage list updater).

The shallow embedding below translates, from the source:

* the per-page reconciliation loop `UserGroupsMassMessageListUpdater.treat_page`
  (source lines 189-282): seeding of current targets, rename handling,
  the `required` live-group check, group-change handling, and the final
  sorted serialization plus the write gate;
* the configuration validator `validate_config` (source lines 65-102);
* the page-to-JSON reader `get_json_from_page` (source lines 40-62).

Conventions of the embedding:

* Usernames and page titles are strings.  A pywikibot page is modelled
  as `SPage` = (namespace id, title); pages compare namespace-first,
  then by title, as pywikibot page ordering does.  A page in the User
  (ns 2) or User talk (ns 3) namespace is represented structurally as
  `UserPage` = (talk flag, username, subpage suffix); its title is the
  string the source would see.  All other pages are carried through as
  `SPage` values (`Target.nonuser`), mirroring the namespace
  classification at source lines 201-212.
* The rename handling at source lines 213-236 replaces the tracked
  `user` unconditionally, but rewrites the page title only through
  `re.sub(r':{user}\b', ...)` — which finds no match (leaving the
  title stale) unless a word boundary follows the username inside the
  title.  The embedding keeps the tracked user and the page separate
  and applies the title rewrite only under that boundary condition;
  partial matches of the pattern strictly inside a longer embedded
  username are outside the model.
* `user.groups()` (live group membership) is a parameter
  `live : String → List String`.
* Python dicts keyed by users become association lists with
  overwrite-on-insert; Python sets of pages become duplicate-free lists.
-/

namespace MassMessage

/-- A pywikibot page as the engine sees it: namespace id and full
title.  Page equality and ordering are by this pair (single site),
matching pywikibot's namespace-first page comparison used by `sorted`
at source line 272. -/
structure SPage where
  ns : Nat
  title : String
deriving DecidableEq

/-- The pywikibot page order (single site): namespace id first, then
title. -/
def SPage.lt (p q : SPage) : Prop :=
  p.ns < q.ns ∨ (p.ns = q.ns ∧ p.title < q.title)

instance (p q : SPage) : Decidable (SPage.lt p q) :=
  inferInstanceAs (Decidable (_ ∨ _))

/-- A page in the User (ns 2) or User talk (ns 3) namespace:
talk flag, owning username, and subpage suffix (either empty or
starting with "/"), as classified at source lines 203-212. -/
structure UserPage where
  talk : Bool
  user : String
  sub : String
deriving DecidableEq

/-- The title string of a user-namespace page. -/
def UserPage.title (p : UserPage) : String :=
  (if p.talk then "User talk:" else "User:") ++ p.user ++ p.sub

/-- The page of a user-namespace page: ns 3 for talk, ns 2 otherwise. -/
def UserPage.page (p : UserPage) : SPage :=
  ⟨if p.talk then 3 else 2, p.title⟩

/-- One current target of the list, classified by namespace as at source
lines 201-204: user/user-talk pages are structured, everything else is
an opaque page added to the `>nonusers` set. -/
inductive Target where
  | user (p : UserPage)
  | nonuser (pg : SPage)
deriving DecidableEq

/-- The page of a target. -/
def Target.page : Target → SPage
  | .user p => p.page
  | .nonuser pg => pg

/-- The title of a target. -/
def Target.title (t : Target) : String := t.page.title

/-- A word character for the purposes of the rename pattern
`r':{user}\b'` (source line 221): Python's `\w` — modelled as
alphanumeric or underscore. -/
def wordChar (c : Char) : Bool := c.isAlphanum || c == '_'

/-- Whether the substitution `re.sub(r':{u}\b', ...)` (source lines
218-225) matches right after the username `u` embedded in a title
whose remainder is `sub`: `\b` holds there iff exactly one side of the
position is a word character (the end of the title counting as
non-word).  In particular the match FAILS when `u` ends in a non-word
character (e.g. `"Tom (LT)"`) and the title continues with "/" or
ends. -/
def renameSubApplies (u : String) (sub : String) : Bool :=
  (match u.data.getLast? with
   | some c => wordChar c
   | none => false)
  != (match sub.data.head? with
      | some c => wordChar c
      | none => false)

/-- A rename event (source `renames` option entries, lines 342-356). -/
structure Rename where
  olduser : String
  newuser : String
  timestamp : Nat
deriving DecidableEq

/-- A group-change event (source `group_changes` entries, lines 374-395):
`added = newgroups - oldgroups`, `removed = oldgroups - newgroups`. -/
structure GroupChange where
  user : String
  added : List String
  removed : List String
  timestamp : Nat
deriving DecidableEq

/-- A per-list policy (one value of the validated config): the group
filter (already normalized to a set at source line 92) and the
`add` / `remove` / `required` switches, each defaulting to false when
absent (the source reads them with `dict.get(key, None)`). -/
structure PageConfig where
  group : List String
  add : Bool
  remove : Bool
  required : Bool

/-- Nonempty intersection test for the Python set expression
`a & b` used in a boolean context. -/
def listInter (xs ys : List String) : Bool :=
  xs.any (fun x => ys.contains x)

/-- Association-list lookup (Python `dict` indexing / `in`). -/
def lookupA {β : Type} (m : List (String × β)) (k : String) : Option β :=
  match m with
  | [] => none
  | (k2, v) :: rest => if k2 == k then some v else lookupA rest k

/-- Association-list insert with overwrite (Python `dict` assignment). -/
def insertA {β : Type} (m : List (String × β)) (k : String) (v : β) :
    List (String × β) :=
  match m with
  | [] => [(k, v)]
  | (k2, v2) :: rest => if k2 == k then (k, v) :: rest else (k2, v2) :: insertA rest k v

/-- Association-list erase (Python `dict.pop`). -/
def eraseA {β : Type} (m : List (String × β)) (k : String) :
    List (String × β) :=
  match m with
  | [] => []
  | (k2, v2) :: rest => if k2 == k then eraseA rest k else (k2, v2) :: eraseA rest k

/-- Duplicate-free add (Python `set.add`). -/
def insertSet {α : Type} [BEq α] (l : List α) (x : α) : List α :=
  if l.contains x then l else l ++ [x]

/-- The state threaded through `treat_page`: the `>nonusers` page set,
the user → page dict, and the three counters (source lines 194-198). -/
structure RecState where
  nonusers : List SPage
  page_dict : List (String × SPage)
  added_count : Nat
  removed_count : Nat
  renamed_count : Nat
deriving DecidableEq

/-- The rename loop at source lines 213-236: every rename whose
`olduser` matches the entry's current (tracked) user replaces the
tracked user and bumps `renamed_count`, and rewrites the page title via
`re.sub(r':{user}\b', ...)`.  The substitution pattern is built from
the TRACKED user; it rewrites the title's embedded username only when
that equals the tracked user and a word boundary follows it
(`renameSubApplies`) — otherwise the page keeps its stale title while
the dict key still moves to the new user.  Renames are scanned in list
order with no break, so chains apply to the tracked user. -/
def applyRenames : List Rename → String → UserPage → Nat →
    String × UserPage × Nat
  | [], u, p, cnt => (u, p, cnt)
  | r :: rs, u, p, cnt =>
    if u == r.olduser then
      let p2 := if p.user == u && renameSubApplies u p.sub
                then { p with user := r.newuser } else p
      applyRenames rs r.newuser p2 (cnt + 1)
    else
      applyRenames rs u p cnt

/-- Processing of one current target (source lines 201-246): non-user
pages go to the `>nonusers` set; user pages get renames applied, then
the `required` live-group check (lines 237-245) on the tracked user,
which drops the entry and bumps `removed_count`, and finally the dict
insertion (line 246) keyed by the tracked user. -/
def treatTarget (cfg : PageConfig) (live : String → List String)
    (renames : List Rename) (st : RecState) : Target → RecState
  | .nonuser pg => { st with nonusers := insertSet st.nonusers pg }
  | .user p =>
    let tr := applyRenames renames p.user p st.renamed_count
    let st2 := { st with renamed_count := tr.2.2 }
    if cfg.required && !(listInter cfg.group (live tr.1)) then
      { st2 with removed_count := st2.removed_count + 1 }
    else
      { st2 with page_dict := insertA st2.page_dict tr.1 tr.2.1.page }

/-- The talk page of a user (`user.toggleTalkPage()` at source
line 258): ns 3, title `User talk:<user>`. -/
def talkPage (u : String) : SPage := ⟨3, "User talk:" ++ u⟩

/-- Processing of one group change (source lines 249-265): the add
branch inserts the user's talk page when `add` is set, the added groups
meet the filter, the user is not a bot and not already present; the
remove branch then pops the user when `remove` is set and the removed
groups meet the filter. -/
def treatChange (cfg : PageConfig) (live : String → List String)
    (st : RecState) (c : GroupChange) : RecState :=
  let st2 :=
    if cfg.add && listInter cfg.group c.added
        && !((live c.user).contains "bot")
        && (lookupA st.page_dict c.user).isNone then
      { st with page_dict := insertA st.page_dict c.user (talkPage c.user),
                added_count := st.added_count + 1 }
    else st
  if cfg.remove && listInter cfg.group c.removed then
    if (lookupA st2.page_dict c.user).isSome then
      { st2 with page_dict := eraseA st2.page_dict c.user,
                 removed_count := st2.removed_count + 1 }
    else st2
  else st2

/-- Insertion into a strictly `SPage.lt`-sorted duplicate-free list:
one step of Python's `sorted(set_of_pages)` at source lines 272-274,
where pywikibot pages order namespace-first, then by title. -/
def insertSortedP (x : SPage) : List SPage → List SPage
  | [] => [x]
  | y :: ys =>
    if SPage.lt x y then x :: y :: ys
    else if SPage.lt y x then y :: insertSortedP x ys
    else y :: ys

/-- Sorted duplicate-free image of a list of pages
(`sorted(nonusers | set(page_dict.values()))`, source lines 272-274). -/
def sortDedupP (l : List SPage) : List SPage := l.foldr insertSortedP []

/-- The outcome of one reconciliation: the materialized title list (in
page order) and the three counters. -/
structure ReconciliationResult where
  finalTitles : List String
  added_count : Nat
  removed_count : Nat
  renamed_count : Nat
deriving DecidableEq

/-- The state after both loops of `treat_page` (source lines 193-265):
seed from the current targets (applying renames and the `required`
check), then apply the group changes in sequence. -/
def reconcileState (cfg : PageConfig) (live : String → List String)
    (renames : List Rename) (group_changes : List GroupChange)
    (targets : List Target) : RecState :=
  let st0 : RecState := ⟨[], [], 0, 0, 0⟩
  let st1 := targets.foldl (treatTarget cfg live renames) st0
  group_changes.foldl (treatChange cfg live) st1

/-- The materialized page list (source lines 272-274): the sorted,
deduplicated union of the `>nonusers` set and the dict values. -/
def finalPages (st : RecState) : List SPage :=
  sortDedupP (st.nonusers ++ st.page_dict.map Prod.snd)

/-- The reconciliation core of `treat_page` (source lines 193-274): the
two loops, then the materialized titles (`page.title()` per line 275,
in page order) and the counters. -/
def reconcile (cfg : PageConfig) (live : String → List String)
    (renames : List Rename) (group_changes : List GroupChange)
    (targets : List Target) : ReconciliationResult :=
  let st2 := reconcileState cfg live renames group_changes targets
  ⟨(finalPages st2).map SPage.title,
    st2.added_count, st2.removed_count, st2.renamed_count⟩

/-- The edit summary built at source lines 277-281. -/
def mkSummary (a r n : Nat) : String :=
  let s := "Update MassMessage list: " ++ toString a ++ " added, "
    ++ toString r ++ " removed"
  if n > 0 then s ++ ", " ++ toString n ++ " renamed" else s

/-- The write gate at source lines 268-282: a save happens only when
some counter is positive, carrying the materialized titles and the
summary. -/
def buildSave (res : ReconciliationResult) : Option (List String × String) :=
  if res.added_count + res.removed_count + res.renamed_count > 0 then
    some (res.finalTitles,
      mkSummary res.added_count res.removed_count res.renamed_count)
  else none

/-- Full `treat_page` pipeline for one list: reconcile, then the write
gate. -/
def treat_page (cfg : PageConfig) (live : String → List String)
    (renames : List Rename) (group_changes : List GroupChange)
    (targets : List Target) : Option (List String × String) :=
  buildSave (reconcile cfg live renames group_changes targets)

/-!
## Reference reconciler following the specification text

`specReconcile` below is *not* translated from the source: it follows
the specification's words for the List Reconciler (spec section 4.2 and
invariant I3) so that the source's behaviour can be compared against
it: seed a working map and a non-user set, run the `required`
re-validation over the seeded users, then process ONE merged event
sequence in ascending timestamp order with rename events first on ties,
where a rename re-keys the map entry and recomputes the associated page
for the new user, and a group change adds/removes per the policy.
-/

/-- Modelled from the spec: one element of the merged event stream. -/
inductive Event where
  | rename (r : Rename)
  | change (c : GroupChange)
deriving DecidableEq

/-- Modelled from the spec: merge the two time-ordered event sequences
into one sequence ascending by timestamp, rename events first on
timestamp ties (spec invariant I3). -/
def mergeEvents : List Rename → List GroupChange → List Event
  | [], cs => cs.map Event.change
  | r :: rs, cs =>
    (cs.takeWhile (fun c => Nat.blt c.timestamp r.timestamp)).map Event.change
      ++ Event.rename r
        :: mergeEvents rs (cs.dropWhile (fun c => Nat.blt c.timestamp r.timestamp))

/-- Modelled from the spec: step 1 of the reference algorithm — seed a
working map `user → entry` plus a separate non-user set from the
current entries. -/
def specSeedTarget (st : RecState) : Target → RecState
  | .nonuser pg => { st with nonusers := insertSet st.nonusers pg }
  | .user p => { st with page_dict := insertA st.page_dict p.user p.page }

/-- Modelled from the spec: step 2 — when `required` is set, drop every
seeded user whose live groups miss the filter, counting each drop as a
removal. -/
def specRequired (cfg : PageConfig) (live : String → List String)
    (st : RecState) : RecState :=
  if cfg.required then
    let pr := st.page_dict.partition (fun kv => listInter cfg.group (live kv.1))
    { st with page_dict := pr.1,
              removed_count := st.removed_count + pr.2.length }
  else st

/-- Modelled from the spec: step 4 — apply one merged event: a rename
re-keys the working-map entry from the old to the new user, recomputing
its associated page for the new user; a group change adds the user's
derived page (policy `add`, filter hit on the added groups, not a bot,
not already present) and/or removes the user (policy `remove`, filter
hit on the removed groups, present). -/
def specStep (cfg : PageConfig) (live : String → List String)
    (st : RecState) : Event → RecState
  | .rename r =>
    if (lookupA st.page_dict r.olduser).isSome then
      { st with
          page_dict := insertA (eraseA st.page_dict r.olduser) r.newuser
            (talkPage r.newuser),
          renamed_count := st.renamed_count + 1 }
    else st
  | .change c =>
    let st2 :=
      if cfg.add && listInter cfg.group c.added
          && !((live c.user).contains "bot")
          && (lookupA st.page_dict c.user).isNone then
        { st with page_dict := insertA st.page_dict c.user (talkPage c.user),
                  added_count := st.added_count + 1 }
      else st
    if cfg.remove && listInter cfg.group c.removed
        && (lookupA st2.page_dict c.user).isSome then
      { st2 with page_dict := eraseA st2.page_dict c.user,
                 removed_count := st2.removed_count + 1 }
    else st2

/-- Modelled from the spec: the retroactive redirection of spec
section 4.2 step 4 — after a rename old→new is applied, any later
event still referencing `old` is redirected to `new`. -/
def redirectEvent (old new : String) : Event → Event
  | .rename r =>
    if r.olduser == old then .rename { r with olduser := new }
    else .rename r
  | .change c =>
    if c.user == old then .change { c with user := new }
    else .change c

/-- Modelled from the spec: process the merged event sequence in order
(spec section 4.2 step 4); each applied rename additionally redirects
every remaining event that still references its old user to the new
one.  The `Nat` argument is fuel equal to the list length, so that the
recursion is structural (redirection preserves the length). -/
def specApply (cfg : PageConfig) (live : String → List String) :
    Nat → RecState → List Event → RecState
  | _, st, [] => st
  | 0, st, _ :: _ => st
  | fuel + 1, st, e :: es =>
    let st2 := specStep cfg live st e
    match e with
    | .rename r =>
      specApply cfg live fuel st2 (es.map (redirectEvent r.olduser r.newuser))
    | .change _ => specApply cfg live fuel st2 es

/-- Modelled from the spec: the full reference reconciler of spec
section 4.2 — seed, required re-validation, merged event processing
per invariant I3 with rename redirection, then the sorted
materialization (shared with the source's materializer, so that the
comparison isolates the event-ordering semantics). -/
def specReconcile (cfg : PageConfig) (live : String → List String)
    (renames : List Rename) (changes : List GroupChange)
    (targets : List Target) : ReconciliationResult :=
  let st0 := targets.foldl specSeedTarget ⟨[], [], 0, 0, 0⟩
  let st1 := specRequired cfg live st0
  let evs := mergeEvents renames changes
  let st2 := specApply cfg live evs.length st1 evs
  ⟨(sortDedupP (st2.nonusers ++ st2.page_dict.map Prod.snd)).map SPage.title,
    st2.added_count, st2.removed_count, st2.renamed_count⟩

/-! ## Helper lemmas about the page order, the sorted materialization
and the dict -/

theorem SPage.lt_trans {a b c : SPage} (h1 : a.lt b) (h2 : b.lt c) :
    a.lt c := by
  rcases h1 with h1 | ⟨e1, t1⟩ <;> rcases h2 with h2 | ⟨e2, t2⟩
  · exact Or.inl (h1.trans h2)
  · exact Or.inl (e2 ▸ h1)
  · exact Or.inl (e1 ▸ h2)
  · exact Or.inr ⟨e1.trans e2, t1.trans t2⟩

theorem SPage.lt_irrefl (a : SPage) : ¬ a.lt a := by
  rintro (h | ⟨-, h⟩)
  · exact Nat.lt_irrefl _ h
  · exact absurd rfl (ne_of_lt h)

theorem SPage.ne_of_lt {a b : SPage} (h : a.lt b) : a ≠ b :=
  fun e => absurd (e ▸ h) (SPage.lt_irrefl b)

theorem SPage.eq_of_not_lt {a b : SPage}
    (h1 : ¬ a.lt b) (h2 : ¬ b.lt a) : a = b := by
  obtain ⟨na, ta⟩ := a
  obtain ⟨nb, tb⟩ := b
  unfold SPage.lt at h1 h2
  push_neg at h1 h2
  simp only at h1 h2
  have hns : na = nb := le_antisymm h2.1 h1.1
  have hti : ta = tb := le_antisymm (h2.2 hns.symm) (h1.2 hns)
  simp [hns, hti]

theorem mem_insertSortedP (a x : SPage) :
    ∀ l : List SPage, x ∈ insertSortedP a l ↔ x = a ∨ x ∈ l := by
  intro l
  induction l with
  | nil => simp [insertSortedP]
  | cons y ys ih =>
    by_cases h1 : SPage.lt a y
    · simp [insertSortedP, h1]
    · by_cases h2 : SPage.lt y a
      · simp only [insertSortedP, if_neg h1, if_pos h2, List.mem_cons, ih]
        tauto
      · have hay : a = y := SPage.eq_of_not_lt h1 h2
        subst hay
        simp only [insertSortedP, if_neg h1, List.mem_cons]
        tauto

theorem insertSortedP_pairwise (a : SPage) :
    ∀ l : List SPage, l.Pairwise SPage.lt →
      (insertSortedP a l).Pairwise SPage.lt := by
  intro l
  induction l with
  | nil => intro _; simp [insertSortedP]
  | cons y ys ih =>
    intro hp
    rcases List.pairwise_cons.1 hp with ⟨hy, hys⟩
    by_cases h1 : SPage.lt a y
    · simp only [insertSortedP, if_pos h1]
      exact List.pairwise_cons.2
        ⟨fun z hz => by
          rcases List.mem_cons.1 hz with h | h
          · exact h ▸ h1
          · exact SPage.lt_trans h1 (hy z h), hp⟩
    · by_cases h2 : SPage.lt y a
      · simp only [insertSortedP, if_neg h1, if_pos h2]
        exact List.pairwise_cons.2
          ⟨fun z hz => by
            rcases (mem_insertSortedP a z ys).1 hz with h | h
            · exact h ▸ h2
            · exact hy z h, ih hys⟩
      · simp only [insertSortedP, if_neg h1, if_neg h2]
        exact hp

theorem sortDedupP_pairwise (l : List SPage) :
    (sortDedupP l).Pairwise SPage.lt := by
  induction l with
  | nil => simp [sortDedupP]
  | cons a l ih => exact insertSortedP_pairwise a _ ih

theorem mem_sortDedupP (x : SPage) :
    ∀ l : List SPage, x ∈ sortDedupP l ↔ x ∈ l := by
  intro l
  induction l with
  | nil => simp [sortDedupP]
  | cons a l ih =>
    show x ∈ insertSortedP a (sortDedupP l) ↔ _
    rw [mem_insertSortedP, ih]
    simp

theorem sortDedupP_nodup (l : List SPage) : (sortDedupP l).Nodup :=
  (sortDedupP_pairwise l).imp SPage.ne_of_lt

theorem sortDedupP_congr {l₁ l₂ : List SPage}
    (h : ∀ x, x ∈ l₁ ↔ x ∈ l₂) : sortDedupP l₁ = sortDedupP l₂ := by
  haveI : IsAntisymm SPage SPage.lt :=
    ⟨fun a b h1 h2 => absurd (SPage.lt_trans h1 h2) (SPage.lt_irrefl a)⟩
  refine List.eq_of_perm_of_sorted ?_ (sortDedupP_pairwise l₁)
    (sortDedupP_pairwise l₂)
  refine (List.perm_ext_iff_of_nodup (sortDedupP_nodup l₁)
    (sortDedupP_nodup l₂)).2 ?_
  intro x
  rw [mem_sortDedupP, mem_sortDedupP]
  exact h x

theorem sortDedupP_of_pairwise (l : List SPage)
    (h : l.Pairwise SPage.lt) : sortDedupP l = l := by
  induction l with
  | nil => rfl
  | cons a l ih =>
    rcases List.pairwise_cons.1 h with ⟨ha, hl⟩
    show insertSortedP a (sortDedupP l) = a :: l
    rw [ih hl]
    cases l with
    | nil => rfl
    | cons b l => simp [insertSortedP, ha b (by simp)]

theorem mem_insertSet {α : Type} [BEq α] [LawfulBEq α] (x a : α)
    (l : List α) : x ∈ insertSet l a ↔ x = a ∨ x ∈ l := by
  unfold insertSet
  by_cases h : a ∈ l
  · rw [if_pos (by simpa using h)]
    constructor
    · exact Or.inr
    · rintro (rfl | hx)
      · exact h
      · exact hx
  · rw [if_neg (by simpa using h)]
    simp [or_comm]

theorem lookupA_eq_none {β : Type} (m : List (String × β)) (k : String) :
    lookupA m k = none ↔ k ∉ m.map Prod.fst := by
  induction m with
  | nil => simp [lookupA]
  | cons kv rest ih =>
    simp only [lookupA, List.map_cons, List.mem_cons]
    by_cases h : kv.1 = k
    · subst h
      simp
    · have hb : (kv.1 == k) = false := beq_eq_false_iff_ne.mpr h
      have hk : ¬k = kv.1 := fun e => h e.symm
      simp only [hb, Bool.false_eq_true, if_false, ih]
      tauto

theorem insertA_fresh {β : Type} (m : List (String × β)) (k : String)
    (v : β) (h : k ∉ m.map Prod.fst) : insertA m k v = m ++ [(k, v)] := by
  induction m with
  | nil => simp [insertA]
  | cons kv rest ih =>
    simp only [List.map_cons, List.mem_cons] at h
    push_neg at h
    have hb : (kv.1 == k) = false :=
      beq_eq_false_iff_ne.mpr (fun e => h.1 e.symm)
    simp [insertA, hb, ih h.2]

theorem foldl_nonusers (cfg : PageConfig) (live : String → List String)
    (renames : List Rename) (pgs : List SPage) (st : RecState) :
    (pgs.map Target.nonuser).foldl (treatTarget cfg live renames) st
      = { st with nonusers := pgs.foldl insertSet st.nonusers } := by
  induction pgs generalizing st with
  | nil => rfl
  | cons a pgs ih => simp [List.foldl, treatTarget, ih]

theorem mem_foldl_insertSet {α : Type} [BEq α] [LawfulBEq α]
    (ns : List α) (l : List α) (x : α) :
    x ∈ ns.foldl insertSet l ↔ x ∈ l ∨ x ∈ ns := by
  induction ns generalizing l with
  | nil => simp
  | cons a ns ih =>
    simp only [List.foldl, ih, mem_insertSet, List.mem_cons]
    tauto

/-! ## Claim theorems -/

/-- C2: for current entries `{talkpage(Alice)}`, policy
`{groupFilter:{"sysop"}, add:true, remove:true, required:false}`, and
events `GroupChange(Bob, added:{"sysop"}, t=1)` then
`GroupChange(Alice, removed:{"sysop"}, t=2)`, with Bob not in the bot
group, reconciliation yields final entries `{talkpage(Bob)}` with
`added=1, removed=1, renamed=0`. -/
theorem concrete_scenario :
    reconcile ⟨["sysop"], true, true, false⟩ (fun _ => []) []
      [⟨"Bob", ["sysop"], [], 1⟩, ⟨"Alice", [], ["sysop"], 2⟩]
      [Target.user ⟨true, "Alice", ""⟩]
      = ⟨["User talk:Bob"], 1, 1, 0⟩ := by decide

/-- C6: a seeded user entry whose live groups miss the policy filter is
dropped (with `removed_count` incremented) when `required` is set, even
with empty event sequences: the check consults live membership only. -/
theorem required_group_eviction (A sub : String) (talk : Bool)
    (cfg : PageConfig) (live : String → List String)
    (hreq : cfg.required = true)
    (hint : listInter cfg.group (live A) = false) :
    reconcile cfg live [] [] [Target.user ⟨talk, A, sub⟩] = ⟨[], 0, 1, 0⟩ := by
  simp [reconcile, reconcileState, finalPages, treatTarget, applyRenames,
    hreq, hint, sortDedupP]

/-- Witness for `required_group_eviction` at a concrete input. -/
theorem required_group_eviction_witness :
    reconcile ⟨["sysop"], true, true, true⟩ (fun _ => []) [] []
      [Target.user ⟨true, "Alice", ""⟩] = ⟨[], 0, 1, 0⟩ :=
  required_group_eviction "Alice" "" true ⟨["sysop"], true, true, true⟩
    (fun _ => []) rfl rfl

/-- C3: with a current entry derived from user A (alongside non-user
entries mentioning neither derived page), a rename A→B at t1 and a
later group change at t2 removing a filter group from B under
`remove=true`, the final set contains neither A's nor B's derived page
and the counters satisfy `renamed=1` and `removed=1`. -/
theorem rename_propagation (nss : List SPage) (A B sub : String)
    (talk : Bool) (t1 : Nat) (cfg : PageConfig)
    (live : String → List String) (c : GroupChange)
    (hcu : c.user = B)
    (hrm : cfg.remove = true)
    (hint : listInter cfg.group c.removed = true)
    (ht : t1 < c.timestamp)
    (hreq : cfg.required = false ∨ listInter cfg.group (live B) = true)
    (hA : UserPage.title ⟨talk, A, sub⟩ ∉ nss.map SPage.title)
    (hB : UserPage.title ⟨talk, B, sub⟩ ∉ nss.map SPage.title) :
    (reconcile cfg live [⟨A, B, t1⟩] [c]
        (nss.map Target.nonuser ++ [Target.user ⟨talk, A, sub⟩])).renamed_count = 1
    ∧ (reconcile cfg live [⟨A, B, t1⟩] [c]
        (nss.map Target.nonuser ++ [Target.user ⟨talk, A, sub⟩])).removed_count = 1
    ∧ (reconcile cfg live [⟨A, B, t1⟩] [c]
        (nss.map Target.nonuser ++ [Target.user ⟨talk, A, sub⟩])).added_count = 0
    ∧ UserPage.title ⟨talk, A, sub⟩ ∉ (reconcile cfg live [⟨A, B, t1⟩] [c]
        (nss.map Target.nonuser ++ [Target.user ⟨talk, A, sub⟩])).finalTitles
    ∧ UserPage.title ⟨talk, B, sub⟩ ∉ (reconcile cfg live [⟨A, B, t1⟩] [c]
        (nss.map Target.nonuser ++ [Target.user ⟨talk, A, sub⟩])).finalTitles := by
  have hreqF : (cfg.required && !listInter cfg.group (live B)) = false := by
    rcases hreq with h | h <;> simp [h]
  obtain ⟨pp, hpp⟩ : ∃ pp : UserPage,
      applyRenames [⟨A, B, t1⟩] A ⟨talk, A, sub⟩ 0 = (B, pp, 1) :=
    ⟨if renameSubApplies A sub then ⟨talk, B, sub⟩ else ⟨talk, A, sub⟩,
      by simp [applyRenames]⟩
  have hstate : reconcileState cfg live [⟨A, B, t1⟩] [c]
      (nss.map Target.nonuser ++ [Target.user ⟨talk, A, sub⟩])
      = ⟨nss.foldl insertSet [], [], 0, 1, 1⟩ := by
    simp [reconcileState, List.foldl_append, foldl_nonusers, treatTarget,
      hpp, hreqF, insertA, treatChange, hcu, lookupA, hrm, hint, eraseA]
  have hmem : ∀ s : String, s ∉ nss.map SPage.title →
      s ∉ (reconcile cfg live [⟨A, B, t1⟩] [c]
        (nss.map Target.nonuser ++ [Target.user ⟨talk, A, sub⟩])).finalTitles := by
    intro s hs hcon
    rw [show (reconcile cfg live [⟨A, B, t1⟩] [c]
        (nss.map Target.nonuser ++ [Target.user ⟨talk, A, sub⟩])).finalTitles
        = (finalPages ⟨nss.foldl insertSet [], [], 0, 1, 1⟩).map SPage.title
      from by simp [reconcile, hstate]] at hcon
    rcases List.mem_map.1 hcon with ⟨pg, hpg, hti⟩
    rw [finalPages] at hpg
    simp only [List.map_nil, List.append_nil] at hpg
    rw [mem_sortDedupP] at hpg
    rcases (mem_foldl_insertSet nss [] pg).1 hpg with h | h
    · exact absurd h (List.not_mem_nil _)
    · exact hs (hti ▸ List.mem_map_of_mem SPage.title h)
  refine ⟨?_, ?_, ?_, hmem _ hA, hmem _ hB⟩ <;>
    simp [reconcile, hstate]

/-- Witness for `rename_propagation` at a concrete input. -/
theorem rename_propagation_witness :
    (reconcile ⟨["sysop"], true, true, false⟩ (fun _ => [])
        [⟨"Alice", "Bob", 1⟩] [⟨"Bob", [], ["sysop"], 2⟩]
        ([(⟨4, "Project:News"⟩ : SPage)].map Target.nonuser
          ++ [Target.user ⟨true, "Alice", ""⟩])).renamed_count = 1
    ∧ (reconcile ⟨["sysop"], true, true, false⟩ (fun _ => [])
        [⟨"Alice", "Bob", 1⟩] [⟨"Bob", [], ["sysop"], 2⟩]
        ([(⟨4, "Project:News"⟩ : SPage)].map Target.nonuser
          ++ [Target.user ⟨true, "Alice", ""⟩])).removed_count = 1
    ∧ (reconcile ⟨["sysop"], true, true, false⟩ (fun _ => [])
        [⟨"Alice", "Bob", 1⟩] [⟨"Bob", [], ["sysop"], 2⟩]
        ([(⟨4, "Project:News"⟩ : SPage)].map Target.nonuser
          ++ [Target.user ⟨true, "Alice", ""⟩])).added_count = 0
    ∧ UserPage.title ⟨true, "Alice", ""⟩ ∉ (reconcile ⟨["sysop"], true, true, false⟩
        (fun _ => []) [⟨"Alice", "Bob", 1⟩] [⟨"Bob", [], ["sysop"], 2⟩]
        ([(⟨4, "Project:News"⟩ : SPage)].map Target.nonuser
          ++ [Target.user ⟨true, "Alice", ""⟩])).finalTitles
    ∧ UserPage.title ⟨true, "Bob", ""⟩ ∉ (reconcile ⟨["sysop"], true, true, false⟩
        (fun _ => []) [⟨"Alice", "Bob", 1⟩] [⟨"Bob", [], ["sysop"], 2⟩]
        ([(⟨4, "Project:News"⟩ : SPage)].map Target.nonuser
          ++ [Target.user ⟨true, "Alice", ""⟩])).finalTitles :=
  rename_propagation [⟨4, "Project:News"⟩] "Alice" "Bob" "" true 1
    ⟨["sysop"], true, true, false⟩ (fun _ => []) ⟨"Bob", [], ["sysop"], 2⟩
    rfl rfl rfl (by decide) (Or.inl rfl) (by decide) (by decide)

/-- C8: the save is suppressed exactly when all three counters are
zero; when a save happens it carries the materialized titles and the
counter-summarizing change description. -/
theorem write_suppression (cfg : PageConfig) (live : String → List String)
    (renames : List Rename) (changes : List GroupChange)
    (targets : List Target) :
    (treat_page cfg live renames changes targets = none ↔
      (reconcile cfg live renames changes targets).added_count = 0
      ∧ (reconcile cfg live renames changes targets).removed_count = 0
      ∧ (reconcile cfg live renames changes targets).renamed_count = 0)
    ∧ (∀ out, treat_page cfg live renames changes targets = some out →
        out = ((reconcile cfg live renames changes targets).finalTitles,
          mkSummary (reconcile cfg live renames changes targets).added_count
            (reconcile cfg live renames changes targets).removed_count
            (reconcile cfg live renames changes targets).renamed_count)) := by
  unfold treat_page buildSave
  by_cases h : (reconcile cfg live renames changes targets).added_count
      + (reconcile cfg live renames changes targets).removed_count
      + (reconcile cfg live renames changes targets).renamed_count > 0
  · rw [if_pos h]
    constructor
    · simp only [reduceCtorEq, false_iff]
      omega
    · intro out hout
      exact (Option.some_inj.mp hout).symm
  · rw [if_neg h]
    constructor
    · constructor
      · intro _; omega
      · intro _; rfl
    · intro out hout
      exact absurd hout (by simp)

/-- Witness for `write_suppression` at a concrete input: zero counters
suppress the write. -/
theorem write_suppression_witness :
    treat_page ⟨["sysop"], true, true, false⟩ (fun _ => []) [] [] [] = none :=
  (write_suppression ⟨["sysop"], true, true, false⟩ (fun _ => []) [] [] []).1.mpr
    (by decide)

/-- C9 counterexample: pywikibot pages sort namespace-first, so a
mixed-namespace list is NOT in lexicographic title order: the mainspace
entry `Zebra` (ns 0) precedes `User talk:Alice` (ns 3) in the
materialized list although it is lexicographically larger. -/
theorem title_order_counterexample :
    (reconcile ⟨["sysop"], true, true, false⟩ (fun _ => []) [] []
        [Target.nonuser ⟨0, "Zebra"⟩, Target.user ⟨true, "Alice", ""⟩]).finalTitles
      = ["Zebra", "User talk:Alice"]
    ∧ ¬ ((reconcile ⟨["sysop"], true, true, false⟩ (fun _ => []) [] []
        [Target.nonuser ⟨0, "Zebra"⟩,
         Target.user ⟨true, "Alice", ""⟩]).finalTitles).Pairwise (· < ·) :=
  ⟨by decide, by
    rw [show (reconcile ⟨["sysop"], true, true, false⟩ (fun _ => []) [] []
        [Target.nonuser ⟨0, "Zebra"⟩,
         Target.user ⟨true, "Alice", ""⟩]).finalTitles
        = ["Zebra", "User talk:Alice"] from by decide]
    intro hp
    have hlt := (List.pairwise_cons.1 hp).1 "User talk:Alice" (by simp)
    rw [String.lt_iff_toList_lt] at hlt
    exact absurd hlt (by decide)⟩

/-- C9 amended: the materialized target list is strictly sorted by the
page comparison key — namespace id first, then title — and contains
each final page at most once; the persisted titles are exactly those
pages' titles in that page order (not, in general, in lexicographic
title order). -/
theorem final_list_sorted_nodup (cfg : PageConfig)
    (live : String → List String) (renames : List Rename)
    (changes : List GroupChange) (targets : List Target) :
    (finalPages (reconcileState cfg live renames changes targets)).Pairwise SPage.lt
    ∧ (finalPages (reconcileState cfg live renames changes targets)).Nodup
    ∧ (reconcile cfg live renames changes targets).finalTitles
        = (finalPages (reconcileState cfg live renames changes targets)).map
            SPage.title :=
  ⟨sortDedupP_pairwise _, sortDedupP_nodup _, rfl⟩

/-! ## `get_json_from_page` (source lines 40-62) -/

/-- The view of a wiki page that `get_json_from_page` consumes:
existence, redirect status, emptiness, and the raw text. -/
structure WikiPage where
  pageExists : Bool
  isRedirectPage : Bool
  isEmpty : Bool
  text : String

/-- Translation of `get_json_from_page` (source lines 40-62): `none`
for a missing, redirect, or empty page; otherwise the stripped text is
parsed, a parse failure being re-raised (modelled as `Except.error`).
The JSON parser itself (`json.loads`) is an external library call,
passed as the `parse` parameter; `.strip()` is `String.trim`. -/
def get_json_from_page {J : Type} (parse : String → Option J)
    (page : WikiPage) : Except String (Option J) :=
  if !page.pageExists then Except.ok none
  else if page.isRedirectPage then Except.ok none
  else if page.isEmpty then Except.ok none
  else
    match parse page.text.trim with
    | some j => Except.ok (some j)
    | none => Except.error "does not contain valid JSON"

/-- C10: `get_json_from_page` returns `none` exactly for a missing,
redirect, or empty page; it raises exactly when the page is readable
but its stripped text fails to parse; and it returns a parsed value
exactly when the page is readable and the stripped text parses to it. -/
theorem get_json_from_page_spec {J : Type} (parse : String → Option J)
    (page : WikiPage) :
    (get_json_from_page parse page = Except.ok none ↔
      (page.pageExists = false ∨ page.isRedirectPage = true
        ∨ page.isEmpty = true))
    ∧ ((∃ e, get_json_from_page parse page = Except.error e) ↔
      (page.pageExists = true ∧ page.isRedirectPage = false
        ∧ page.isEmpty = false ∧ parse page.text.trim = none))
    ∧ (∀ j, get_json_from_page parse page = Except.ok (some j) ↔
      (page.pageExists = true ∧ page.isRedirectPage = false
        ∧ page.isEmpty = false ∧ parse page.text.trim = some j)) := by
  obtain ⟨pe, pr, pem, txt⟩ := page
  cases pe <;> cases pr <;> cases pem <;>
    simp only [get_json_from_page, Bool.not_false, Bool.not_true,
      if_true, if_false, Bool.false_eq_true, Bool.true_eq_false] <;>
    try simp
  cases h : parse txt.trim <;> simp [h]

/-! ## C1: event interleaving -/

theorem changeStep_agree (cfg : PageConfig) (live : String → List String)
    (st : RecState) (c : GroupChange) :
    treatChange cfg live st c = specStep cfg live st (Event.change c) := by
  simp only [treatChange, specStep]
  by_cases h2 : (cfg.remove && listInter cfg.group c.removed) = true
  · simp only [h2, Bool.true_and, if_true]
  · simp only [h2, Bool.false_and, Bool.false_eq_true, if_false]

/-- C1 counterexample: with no current targets, a group-change add for
X at t=1 followed by a rename X→Y at t=2, the code leaves the rename
unapplied (it only scans renames against seeded entries, before group
changes), producing `User talk:X` with `renamed=0`, while the
timestamp-interleaved reference produces `User talk:Y` with
`renamed=1`. -/
theorem merged_order_counterexample :
    reconcile ⟨["sysop"], true, false, false⟩ (fun _ => [])
        [⟨"X", "Y", 2⟩] [⟨"X", ["sysop"], [], 1⟩] []
      = ⟨["User talk:X"], 1, 0, 0⟩
    ∧ specReconcile ⟨["sysop"], true, false, false⟩ (fun _ => [])
        [⟨"X", "Y", 2⟩] [⟨"X", ["sysop"], [], 1⟩] []
      = ⟨["User talk:Y"], 1, 0, 1⟩
    ∧ reconcile ⟨["sysop"], true, false, false⟩ (fun _ => [])
        [⟨"X", "Y", 2⟩] [⟨"X", ["sysop"], [], 1⟩] []
      ≠ specReconcile ⟨["sysop"], true, false, false⟩ (fun _ => [])
        [⟨"X", "Y", 2⟩] [⟨"X", ["sysop"], [], 1⟩] [] :=
  ⟨by decide, by decide, by decide⟩

/-- C1 amended: the code applies every rename (against the seeded
entries) before any group-change event, regardless of timestamps, so
its output is not in general that of the timestamp-merged reference;
but in the tie scenario — one seeded talk-page entry for A (with the
rename's title substitution applicable, i.e. A ending in a word
character), a rename A→B and a group change for B sharing one
timestamp, `required` unset — the code's output coincides with the
rename-first interleaved reference. -/
theorem rename_before_group_change_on_tie (A B : String) (t : Nat)
    (cfg : PageConfig) (live : String → List String) (c : GroupChange)
    (hcu : c.user = B) (hct : c.timestamp = t)
    (hreq : cfg.required = false)
    (hword : renameSubApplies A "" = true) :
    reconcile cfg live [⟨A, B, t⟩] [c] [Target.user ⟨true, A, ""⟩]
      = specReconcile cfg live [⟨A, B, t⟩] [c] [Target.user ⟨true, A, ""⟩] := by
  have hblt : Nat.blt c.timestamp t = false := by
    rw [Bool.eq_false_iff]
    intro h
    rw [hct] at h
    exact lt_irrefl t (Nat.blt_eq.mp h)
  have hmerge : mergeEvents [⟨A, B, t⟩] [c]
      = [Event.rename ⟨A, B, t⟩, Event.change c] := by
    simp [mergeEvents, hblt]
  have hred : redirectEvent A B (Event.change c) = Event.change c := by
    obtain ⟨cu, cad, crm, ct⟩ := c
    simp only [GroupChange.user] at hcu
    subst hcu
    simp [redirectEvent, ite_self]
  have happ : ∀ st : RecState,
      specApply cfg live 2 st [Event.rename ⟨A, B, t⟩, Event.change c]
        = specStep cfg live (specStep cfg live st (Event.rename ⟨A, B, t⟩))
            (Event.change c) := by
    intro st
    show specApply cfg live 1 (specStep cfg live st (Event.rename ⟨A, B, t⟩))
        ([Event.change c].map (redirectEvent A B)) = _
    rw [List.map_cons, List.map_nil, hred]
    rfl
  have hlen : ([Event.rename ⟨A, B, t⟩, Event.change c] : List Event).length
      = 2 := rfl
  have hseed : List.foldl (treatTarget cfg live [⟨A, B, t⟩])
      (⟨[], [], 0, 0, 0⟩ : RecState) [Target.user ⟨true, A, ""⟩]
      = specStep cfg live
          (specRequired cfg live
            (List.foldl specSeedTarget (⟨[], [], 0, 0, 0⟩ : RecState)
              [Target.user ⟨true, A, ""⟩]))
          (Event.rename ⟨A, B, t⟩) := by
    simp [treatTarget, applyRenames, hreq, hword, specSeedTarget,
      specRequired, specStep, insertA, eraseA, lookupA, UserPage.page,
      UserPage.title, talkPage, String.append_empty]
  simp only [reconcile, reconcileState, finalPages, specReconcile, hmerge,
    hlen, happ, List.foldl_cons, List.foldl_nil, ← changeStep_agree, hseed]

/-- Witness for `rename_before_group_change_on_tie` at a concrete
input. -/
theorem rename_before_group_change_on_tie_witness :
    reconcile ⟨["sysop"], true, true, false⟩ (fun _ => [])
        [⟨"Alice", "Bob", 5⟩] [⟨"Bob", [], ["sysop"], 5⟩]
        [Target.user ⟨true, "Alice", ""⟩]
      = specReconcile ⟨["sysop"], true, true, false⟩ (fun _ => [])
        [⟨"Alice", "Bob", 5⟩] [⟨"Bob", [], ["sysop"], 5⟩]
        [Target.user ⟨true, "Alice", ""⟩] :=
  rename_before_group_change_on_tie "Alice" "Bob" 5
    ⟨["sysop"], true, true, false⟩ (fun _ => [])
    ⟨"Bob", [], ["sysop"], 5⟩ rfl rfl rfl (by decide)

/-! ## C5: idempotence on an empty event window -/

/-- The users owning the user-derived targets of a list. -/
def usersOf (targets : List Target) : List String :=
  targets.filterMap (fun t => match t with
    | Target.user p => some p.user
    | Target.nonuser _ => none)

theorem foldSeed_no_events (cfg : PageConfig) (live : String → List String) :
    ∀ (targets : List Target) (st : RecState),
      (∀ p, Target.user p ∈ targets →
        cfg.required = false ∨ listInter cfg.group (live p.user) = true) →
      (∀ p, Target.user p ∈ targets → p.user ∉ st.page_dict.map Prod.fst) →
      (usersOf targets).Nodup →
      (targets.foldl (treatTarget cfg live []) st).added_count = st.added_count
      ∧ (targets.foldl (treatTarget cfg live []) st).removed_count = st.removed_count
      ∧ (targets.foldl (treatTarget cfg live []) st).renamed_count = st.renamed_count
      ∧ ∀ x : SPage, (x ∈ (targets.foldl (treatTarget cfg live []) st).nonusers
            ∨ x ∈ (targets.foldl (treatTarget cfg live []) st).page_dict.map Prod.snd)
          ↔ (x ∈ st.nonusers ∨ x ∈ st.page_dict.map Prod.snd
              ∨ x ∈ targets.map Target.page) := by
  intro targets
  induction targets with
  | nil => intro st _ _ _; simp
  | cons tg ts ih =>
    intro st hpass hfresh hnd
    cases tg with
    | nonuser pg =>
      have hnd2 : (usersOf ts).Nodup := by
        simpa [usersOf] using hnd
      obtain ⟨ha, hr, hn, hm⟩ :=
        ih { st with nonusers := insertSet st.nonusers pg }
          (fun p hp => hpass p (List.mem_cons_of_mem _ hp))
          (fun p hp => hfresh p (List.mem_cons_of_mem _ hp)) hnd2
      refine ⟨ha, hr, hn, fun x => ?_⟩
      rw [List.foldl_cons]
      show _ ↔ _ ∨ _ ∨ x ∈ (Target.nonuser pg :: ts).map Target.page
      have : treatTarget cfg live [] st (Target.nonuser pg)
          = { st with nonusers := insertSet st.nonusers pg } := rfl
      rw [this, hm x]
      simp only [mem_insertSet, List.map_cons, List.mem_cons, Target.page]
      tauto
    | user p =>
      have hcond : (cfg.required && !listInter cfg.group (live p.user)) = false := by
        rcases hpass p (List.mem_cons_self _ _) with h | h <;> simp [h]
      have hfr : p.user ∉ st.page_dict.map Prod.fst :=
        hfresh p (List.mem_cons_self _ _)
      have hstep : treatTarget cfg live [] st (Target.user p)
          = { st with page_dict := st.page_dict ++ [(p.user, p.page)] } := by
        simp [treatTarget, applyRenames, hcond, insertA_fresh _ _ _ hfr]
      have hnd2 : (usersOf ts).Nodup := by
        have := hnd
        simp only [usersOf, List.filterMap_cons] at this
        exact (List.nodup_cons.1 this).2
      have hpu : p.user ∉ usersOf ts := by
        have := hnd
        simp only [usersOf, List.filterMap_cons] at this
        exact (List.nodup_cons.1 this).1
      have hfresh2 : ∀ q, Target.user q ∈ ts →
          q.user ∉ ({ st with page_dict := st.page_dict ++ [(p.user, p.page)] }
            : RecState).page_dict.map Prod.fst := by
        intro q hq
        simp only [List.map_append, List.mem_append, List.map_cons,
          List.map_nil, List.mem_singleton]
        rintro (h | h)
        · exact hfresh q (List.mem_cons_of_mem _ hq) h
        · apply hpu
          rw [← h]
          exact List.mem_filterMap.2 ⟨Target.user q, hq, rfl⟩
      obtain ⟨ha, hr, hn, hm⟩ :=
        ih { st with page_dict := st.page_dict ++ [(p.user, p.page)] }
          (fun q hq => hpass q (List.mem_cons_of_mem _ hq)) hfresh2 hnd2
      refine ⟨?_, ?_, ?_, fun x => ?_⟩
      · rw [List.foldl_cons, hstep]; exact ha
      · rw [List.foldl_cons, hstep]; exact hr
      · rw [List.foldl_cons, hstep]; exact hn
      · rw [List.foldl_cons, hstep, hm x]
        simp only [List.map_append, List.mem_append, List.map_cons,
          List.map_nil, List.mem_singleton, List.mem_cons, Target.page]
        tauto

/-- C5 counterexample: a run with `required=true` adds X (the add path
performs no required check), yielding `{User talk:X}`; re-running on
that output with empty event sequences evicts X (live groups empty), so
the second run returns `⟨[], 0, 1, 0⟩` — not the same entries and not
zero counters. -/
theorem idempotence_counterexample :
    (reconcile ⟨["sysop"], true, false, true⟩ (fun _ => []) []
        [⟨"X", ["sysop"], [], 1⟩] []).finalTitles = ["User talk:X"]
    ∧ reconcile ⟨["sysop"], true, false, true⟩ (fun _ => []) [] []
        [Target.user ⟨true, "X", ""⟩]
      = ⟨[], 0, 1, 0⟩ :=
  ⟨by decide, by decide⟩

/-- C5 amended: with empty event sequences, reconciliation keeps every
entry and reports zero counters — hence no write — provided every
seeded user still passes the `required` re-validation (in particular
whenever `required=false`) and the user targets have pairwise distinct
users; the final list is the input in canonical page order (namespace,
then title), so an input already in that order (any previous run's
output) is returned unchanged. -/
theorem reconcile_empty_events (cfg : PageConfig)
    (live : String → List String) (targets : List Target)
    (hreq : ∀ p, Target.user p ∈ targets →
      cfg.required = false ∨ listInter cfg.group (live p.user) = true)
    (hdist : (usersOf targets).Nodup) :
    reconcile cfg live [] [] targets
      = ⟨(sortDedupP (targets.map Target.page)).map SPage.title, 0, 0, 0⟩
    ∧ treat_page cfg live [] [] targets = none
    ∧ ((targets.map Target.page).Pairwise SPage.lt →
        (reconcile cfg live [] [] targets).finalTitles
          = (targets.map Target.page).map SPage.title) := by
  obtain ⟨ha, hr, hn, hm⟩ :=
    foldSeed_no_events cfg live targets ⟨[], [], 0, 0, 0⟩ hreq (by simp) hdist
  have hpages : finalPages (reconcileState cfg live [] [] targets)
      = sortDedupP (targets.map Target.page) := by
    simp only [reconcileState, List.foldl_nil, finalPages]
    refine sortDedupP_congr ?_
    intro x
    rw [List.mem_append]
    have := hm x
    simpa using this
  have hrec : reconcile cfg live [] [] targets
      = ⟨(sortDedupP (targets.map Target.page)).map SPage.title, 0, 0, 0⟩ := by
    simp only [reconcile, ReconciliationResult.mk.injEq]
    refine ⟨by rw [hpages], ?_, ?_, ?_⟩
    · simpa [reconcileState] using ha
    · simpa [reconcileState] using hr
    · simpa [reconcileState] using hn
  refine ⟨hrec, ?_, ?_⟩
  · simp [treat_page, hrec, buildSave]
  · intro hsort
    rw [hrec]
    exact congrArg (List.map SPage.title) (sortDedupP_of_pairwise _ hsort)

/-- Witness for `reconcile_empty_events` at a concrete input. -/
theorem reconcile_empty_events_witness :
    reconcile ⟨["sysop"], true, true, false⟩ (fun _ => []) [] []
        [Target.nonuser ⟨0, "Aaa"⟩, Target.user ⟨true, "X", ""⟩]
      = ⟨(sortDedupP ([Target.nonuser ⟨0, "Aaa"⟩,
            Target.user ⟨true, "X", ""⟩].map Target.page)).map SPage.title,
          0, 0, 0⟩
    ∧ treat_page ⟨["sysop"], true, true, false⟩ (fun _ => []) [] []
        [Target.nonuser ⟨0, "Aaa"⟩, Target.user ⟨true, "X", ""⟩] = none
    ∧ (([Target.nonuser ⟨0, "Aaa"⟩, Target.user ⟨true, "X", ""⟩].map
          Target.page).Pairwise SPage.lt →
        (reconcile ⟨["sysop"], true, true, false⟩ (fun _ => []) [] []
          [Target.nonuser ⟨0, "Aaa"⟩, Target.user ⟨true, "X", ""⟩]).finalTitles
          = ([Target.nonuser ⟨0, "Aaa"⟩, Target.user ⟨true, "X", ""⟩].map
              Target.page).map SPage.title) :=
  reconcile_empty_events ⟨["sysop"], true, true, false⟩ (fun _ => [])
    [Target.nonuser ⟨0, "Aaa"⟩, Target.user ⟨true, "X", ""⟩]
    (fun p hp => Or.inl rfl) (by decide)

/-! ## C7: `validate_config` (source lines 65-102) -/

/-- A configuration value as seen by `validate_config`: a boolean, a
single string, a set of strings, a page object carrying its content
model, or anything else. -/
inductive ConfigValue where
  | bool (b : Bool)
  | str (s : String)
  | strset (ss : List String)
  | page (content_model : String)
  | other
deriving DecidableEq

/-- `required_keys` of `validate_config` (source line 82). -/
def requiredKeys : List String := ["enabled", "group", "page"]

/-- Python dict assignment on a config entry
(`page_config['page'] = ...`, source line 81). -/
def insertVal (m : List (String × ConfigValue)) (k : String)
    (v : ConfigValue) : List (String × ConfigValue) :=
  match m with
  | [] => [(k, v)]
  | (k2, v2) :: rest =>
    if k2 == k then (k, v) :: rest else (k2, v2) :: insertVal rest k v

/-- The key/value loop of `validate_config` (source lines 84-99):
collects the required keys seen in `has_keys` and early-returns `False`
(modelled as `none`) on a non-bool switch value, a non-string `group`,
a `page` whose content model is not `MassMessageListContent`, or an
unrecognized key. -/
def validateItems : List (String × ConfigValue) → List String →
    Option (List String)
  | [], has_keys => some has_keys
  | (key, value) :: rest, has_keys =>
    let hk := if requiredKeys.contains key then has_keys ++ [key] else has_keys
    if key == "add" || key == "enabled" || key == "remove" || key == "required" then
      match value with
      | .bool _ => validateItems rest hk
      | _ => none
    else if key == "group" then
      match value with
      | .str _ => validateItems rest hk
      | _ => none
    else if key == "page" then
      match value with
      | .page cm =>
        if cm == "MassMessageListContent" then validateItems rest hk else none
      | _ => none
    else none

/-- Insertion sort (ascending) of a string list, duplicates kept:
Python's `sorted` on `has_keys` (source line 100). -/
def insertOrd (x : String) : List String → List String
  | [] => [x]
  | y :: ys => if y < x then y :: insertOrd x ys else x :: y :: ys

/-- `sorted(l)` for string lists. -/
def sortStr (l : List String) : List String := l.foldr insertOrd []

/-- Validation of one config entry (source lines 79-101): the `page`
key is first overwritten with the page object built from the entry's
title (whose content model the `cm_of` parameter supplies), then the
key/value loop runs, then the collected `has_keys` must equal
`required_keys` up to order. -/
def validate_entry (cm_of : String → String) (title : String)
    (entry : List (String × ConfigValue)) : Bool :=
  let entry2 := insertVal entry "page" (ConfigValue.page (cm_of title))
  match validateItems entry2 [] with
  | none => false
  | some has_keys => sortStr has_keys == sortStr requiredKeys

/-- `validate_config` (source lines 65-102) over an already-dict-shaped
configuration: every entry must validate. -/
def validate_config (cm_of : String → String)
    (config : List (String × List (String × ConfigValue))) : Bool :=
  config.all (fun kv => validate_entry cm_of kv.1 kv.2)

/-- C7 counterexample: an entry whose `group` value is a set of group
names (with `enabled` present and the page's content model correct) is
REJECTED by `validate_config` — the code accepts only a single string
for `group` — contradicting the claim that such a configuration is
accepted. -/
theorem set_group_rejected_counterexample :
    validate_config (fun _ => "MassMessageListContent")
      [("Wikipedia:Sysops list",
        [("enabled", ConfigValue.bool true),
         ("group", ConfigValue.strset ["sysop"])])] = false := by decide

/-- The per-item acceptance condition of the `validate_config` loop,
factored out of `validateItems`. -/
def goodItem : String × ConfigValue → Bool
  | (key, value) =>
    if key == "add" || key == "enabled" || key == "remove" || key == "required" then
      match value with
      | .bool _ => true
      | _ => false
    else if key == "group" then
      match value with
      | .str _ => true
      | _ => false
    else if key == "page" then
      match value with
      | .page cm => cm == "MassMessageListContent"
      | _ => false
    else false

theorem validateItems_eq :
    ∀ (l : List (String × ConfigValue)) (acc : List String),
      validateItems l acc =
        if l.all goodItem then
          some (acc ++ (l.map Prod.fst).filter (fun k => requiredKeys.contains k))
        else none := by
  intro l
  induction l with
  | nil => intro acc; simp [validateItems]
  | cons kv rest ih =>
    intro acc
    obtain ⟨key, value⟩ := kv
    by_cases h1 : key = "add" ∨ key = "enabled" ∨ key = "remove"
        ∨ key = "required"
    · rcases h1 with rfl | rfl | rfl | rfl <;> cases value <;>
        simp [validateItems, goodItem, ih, requiredKeys, List.filter_cons,
          List.append_assoc] <;>
        rw [Bool.true_and]
    · by_cases h2 : key = "group"
      · subst h2
        cases value <;>
          simp [validateItems, goodItem, ih, List.filter_cons,
            List.append_assoc, requiredKeys] <;>
          rw [Bool.true_and]
      · by_cases h3 : key = "page"
        · subst h3
          cases value with
          | page cm =>
            by_cases hcm : cm = "MassMessageListContent"
            · subst hcm
              simp [validateItems, goodItem, ih, List.filter_cons,
                List.append_assoc, requiredKeys] <;>
                rw [Bool.true_and]
            · have hb : (cm == "MassMessageListContent") = false :=
                beq_eq_false_iff_ne.mpr hcm
              simp [validateItems, goodItem, ih, List.filter_cons,
                requiredKeys, hb]
          | bool b => simp [validateItems, goodItem, requiredKeys]
          | str s => simp [validateItems, goodItem, requiredKeys]
          | strset ss => simp [validateItems, goodItem, requiredKeys]
          | other => simp [validateItems, goodItem, requiredKeys]
        · have n1 : key ≠ "add" := fun h => h1 (Or.inl h)
          have n2 : key ≠ "enabled" := fun h => h1 (Or.inr (Or.inl h))
          have n3 : key ≠ "remove" := fun h => h1 (Or.inr (Or.inr (Or.inl h)))
          have n4 : key ≠ "required" :=
            fun h => h1 (Or.inr (Or.inr (Or.inr h)))
          cases value <;>
            simp [validateItems, goodItem, n1, n2, n3, n4, h2, h3]

theorem insertVal_fresh (m : List (String × ConfigValue)) (k : String)
    (v : ConfigValue) (h : k ∉ m.map Prod.fst) :
    insertVal m k v = m ++ [(k, v)] := by
  induction m with
  | nil => simp [insertVal]
  | cons kv rest ih =>
    simp only [List.map_cons, List.mem_cons] at h
    push_neg at h
    have hb : (kv.1 == k) = false :=
      beq_eq_false_iff_ne.mpr (fun e => h.1 e.symm)
    simp [insertVal, hb, ih h.2]

theorem goodItem_iff (key : String) (value : ConfigValue)
    (hk : key ≠ "page") :
    goodItem (key, value) = true ↔
      ((key = "add" ∨ key = "enabled" ∨ key = "remove" ∨ key = "required")
        ∧ ∃ b, value = ConfigValue.bool b)
      ∨ (key = "group" ∧ ∃ s, value = ConfigValue.str s) := by
  by_cases h1 : key = "add" ∨ key = "enabled" ∨ key = "remove"
      ∨ key = "required"
  · rcases h1 with rfl | rfl | rfl | rfl <;> cases value <;> simp [goodItem]
  · have n1 : key ≠ "add" := fun h => h1 (Or.inl h)
    have n2 : key ≠ "enabled" := fun h => h1 (Or.inr (Or.inl h))
    have n3 : key ≠ "remove" := fun h => h1 (Or.inr (Or.inr (Or.inl h)))
    have n4 : key ≠ "required" := fun h => h1 (Or.inr (Or.inr (Or.inr h)))
    by_cases h2 : key = "group"
    · subst h2
      cases value <;> simp [goodItem]
    · cases value <;> simp [goodItem, n1, n2, n3, n4, h2, hk]

theorem mem_insertOrd (x z : String) :
    ∀ l : List String, z ∈ insertOrd x l ↔ z = x ∨ z ∈ l := by
  intro l
  induction l with
  | nil => simp [insertOrd]
  | cons y ys ih =>
    by_cases h : y < x
    · simp only [insertOrd, if_pos h, List.mem_cons, ih]
      tauto
    · simp only [insertOrd, if_neg h, List.mem_cons]

theorem insertOrd_perm (x : String) :
    ∀ l : List String, (insertOrd x l).Perm (x :: l) := by
  intro l
  induction l with
  | nil => simp [insertOrd]
  | cons y ys ih =>
    by_cases h : y < x
    · simp only [insertOrd, if_pos h]
      exact (ih.cons y).trans (List.Perm.swap x y ys)
    · simp only [insertOrd, if_neg h]
      exact List.Perm.refl _

theorem sortStr_perm (l : List String) : (sortStr l).Perm l := by
  induction l with
  | nil => exact List.Perm.refl _
  | cons a l ih =>
    show (insertOrd a (sortStr l)).Perm (a :: l)
    exact (insertOrd_perm a _).trans (ih.cons a)

theorem insertOrd_pairwise (x : String) :
    ∀ l : List String, l.Pairwise (· ≤ ·) →
      (insertOrd x l).Pairwise (· ≤ ·) := by
  intro l
  induction l with
  | nil => intro _; simp [insertOrd]
  | cons y ys ih =>
    intro hp
    rcases List.pairwise_cons.1 hp with ⟨hy, hys⟩
    by_cases h : y < x
    · simp only [insertOrd, if_pos h]
      refine List.pairwise_cons.2 ⟨fun z hz => ?_, ih hys⟩
      rcases (mem_insertOrd x z ys).1 hz with rfl | hzm
      · exact le_of_lt h
      · exact hy z hzm
    · simp only [insertOrd, if_neg h]
      refine List.pairwise_cons.2 ⟨fun z hz => ?_, hp⟩
      rcases List.mem_cons.1 hz with rfl | hzm
      · exact not_lt.1 h
      · exact le_trans (not_lt.1 h) (hy z hzm)

theorem sortStr_pairwise (l : List String) :
    (sortStr l).Pairwise (· ≤ ·) := by
  induction l with
  | nil => simp [sortStr]
  | cons a l ih => exact insertOrd_pairwise a _ ih

theorem sortStr_eq_iff_perm (l₁ l₂ : List String) :
    sortStr l₁ = sortStr l₂ ↔ l₁.Perm l₂ := by
  constructor
  · intro h
    have h2 := sortStr_perm l₂
    rw [← h] at h2
    exact (sortStr_perm l₁).symm.trans h2
  · intro h
    haveI : IsAntisymm String (· ≤ ·) := ⟨fun a b => le_antisymm⟩
    exact List.eq_of_perm_of_sorted
      ((sortStr_perm l₁).trans (h.trans (sortStr_perm l₂).symm))
      (sortStr_pairwise l₁) (sortStr_pairwise l₂)

theorem haskeys_perm_iff (ks : List String)
    (hp : "page" ∉ ks) (hnd : ks.Nodup) :
    (ks.filter (fun k => requiredKeys.contains k) ++ ["page"]).Perm requiredKeys
      ↔ ("enabled" ∈ ks ∧ "group" ∈ ks) := by
  constructor
  · intro hperm
    constructor
    · have he : ("enabled" : String) ∈ requiredKeys := by decide
      rcases List.mem_append.1 (hperm.mem_iff.mpr he) with h | h
      · exact (List.mem_filter.1 h).1
      · have hbad : ("enabled" : String) = "page" := by simpa using h
        exact absurd hbad (by decide)
    · have hg : ("group" : String) ∈ requiredKeys := by decide
      rcases List.mem_append.1 (hperm.mem_iff.mpr hg) with h | h
      · exact (List.mem_filter.1 h).1
      · have hbad : ("group" : String) = "page" := by simpa using h
        exact absurd hbad (by decide)
  · rintro ⟨he, hg⟩
    have hF : (ks.filter (fun k => requiredKeys.contains k)).Perm
        ["enabled", "group"] := by
      refine (List.perm_ext_iff_of_nodup (hnd.filter _) (by decide)).2 ?_
      intro x
      simp only [List.mem_filter, List.mem_cons, List.not_mem_nil, or_false]
      constructor
      · rintro ⟨hx, hc⟩
        have hxr : x ∈ requiredKeys := by simpa using hc
        rcases (by simpa [requiredKeys] using hxr :
            x = "enabled" ∨ x = "group" ∨ x = "page") with h | h | h
        · exact Or.inl h
        · exact Or.inr h
        · exact absurd (h ▸ hx) hp
      · rintro (rfl | rfl)
        · exact ⟨he, by decide⟩
        · exact ⟨hg, by decide⟩
    have hfin := hF.append_right ["page"]
    simpa [requiredKeys] using hfin

/-- C7 amended: the `page` key is injected from the entry's title
before validation (so it is never missing), and — given that the
injected page has the `MassMessageListContent` model and every
key/value passes its typing branch — validation of an entry succeeds
iff `enabled` and `group` are present; the typing branches demand a
BOOLEAN for `add`/`enabled`/`remove`/`required`, a SINGLE STRING (not a
set) for `group`, and reject any unrecognized key. -/
theorem validate_config_characterization (cm_of : String → String)
    (title : String) (e : List (String × ConfigValue))
    (hpage : "page" ∉ e.map Prod.fst)
    (hnd : (e.map Prod.fst).Nodup) :
    validate_config cm_of [(title, e)] = true ↔
      (cm_of title = "MassMessageListContent"
        ∧ (∀ kv ∈ e,
            ((kv.1 = "add" ∨ kv.1 = "enabled" ∨ kv.1 = "remove"
                ∨ kv.1 = "required") ∧ ∃ b, kv.2 = ConfigValue.bool b)
            ∨ (kv.1 = "group" ∧ ∃ s, kv.2 = ConfigValue.str s))
        ∧ "enabled" ∈ e.map Prod.fst
        ∧ "group" ∈ e.map Prod.fst) := by
  have hgood : e.all goodItem = true ↔
      ∀ kv ∈ e,
        ((kv.1 = "add" ∨ kv.1 = "enabled" ∨ kv.1 = "remove"
            ∨ kv.1 = "required") ∧ ∃ b, kv.2 = ConfigValue.bool b)
        ∨ (kv.1 = "group" ∧ ∃ s, kv.2 = ConfigValue.str s) := by
    rw [List.all_eq_true]
    constructor
    · intro h kv hkv
      have hk : kv.1 ≠ "page" :=
        fun hkp => hpage (hkp ▸ List.mem_map_of_mem Prod.fst hkv)
      exact (goodItem_iff kv.1 kv.2 hk).mp (h kv hkv)
    · intro h kv hkv
      have hk : kv.1 ≠ "page" :=
        fun hkp => hpage (hkp ▸ List.mem_map_of_mem Prod.fst hkv)
      exact (goodItem_iff kv.1 kv.2 hk).mpr (h kv hkv)
  have hgp : goodItem ("page", ConfigValue.page (cm_of title))
      = (cm_of title == "MassMessageListContent") := by
    simp [goodItem]
  have hfilter : (((e ++ [("page", ConfigValue.page (cm_of title))]).map
        Prod.fst).filter (fun k => requiredKeys.contains k))
      = (e.map Prod.fst).filter (fun k => requiredKeys.contains k)
        ++ ["page"] := by
    rw [List.map_append, List.filter_append]
    rfl
  have hmain : validate_config cm_of [(title, e)]
      = validate_entry cm_of title e := by
    simp [validate_config]
  rw [hmain]
  simp only [validate_entry]
  rw [insertVal_fresh _ _ _ hpage, validateItems_eq, List.all_append]
  by_cases hall : e.all goodItem = true
  · by_cases hcm : (cm_of title == "MassMessageListContent") = true
    · simp only [hall, List.all_cons, List.all_nil, hgp, hcm,
        Bool.and_true, Bool.true_and, if_true, List.nil_append, hfilter]
      rw [beq_iff_eq, sortStr_eq_iff_perm, haskeys_perm_iff _ hpage hnd]
      have h1 : cm_of title = "MassMessageListContent" := beq_iff_eq.mp hcm
      have h2 := hgood.mp hall
      constructor
      · rintro ⟨he, hg⟩
        exact ⟨h1, h2, he, hg⟩
      · rintro ⟨-, -, he, hg⟩
        exact ⟨he, hg⟩
    · simp only [hall, List.all_cons, List.all_nil, hgp,
        Bool.and_true, Bool.true_and]
      rw [if_neg (by simp [hcm])]
      simp only [Bool.false_eq_true, false_iff]
      rintro ⟨h1, -⟩
      exact hcm (beq_iff_eq.mpr h1)
  · rw [if_neg (by simp [hall])]
    simp only [Bool.false_eq_true, false_iff]
    rintro ⟨-, h2, -⟩
    exact hall (hgood.mpr h2)

/-- Witness for `validate_config_characterization`: a configuration
whose `group` value is a single string is accepted. -/
theorem validate_config_characterization_witness :
    validate_config (fun _ => "MassMessageListContent")
      [("Wikipedia:Sysops list",
        [("enabled", ConfigValue.bool true),
         ("group", ConfigValue.str "sysop"),
         ("add", ConfigValue.bool true)])] = true :=
  (validate_config_characterization (fun _ => "MassMessageListContent")
    "Wikipedia:Sysops list"
    [("enabled", ConfigValue.bool true),
     ("group", ConfigValue.str "sysop"),
     ("add", ConfigValue.bool true)] (by decide) (by decide)).mpr
    ⟨rfl,
      by
        intro kv hkv
        rcases (by simpa using hkv :
            kv = ("enabled", ConfigValue.bool true)
            ∨ kv = ("group", ConfigValue.str "sysop")
            ∨ kv = ("add", ConfigValue.bool true)) with rfl | rfl | rfl
        · exact Or.inl ⟨Or.inr (Or.inl rfl), true, rfl⟩
        · exact Or.inr ⟨rfl, "sysop", rfl⟩
        · exact Or.inl ⟨Or.inl rfl, true, rfl⟩,
      by decide, by decide⟩

end MassMessage
